import Mathlib

set_option maxRecDepth 10000

/-!
# Verification of the gofem documentation generator (`xgendoc.py`)

Shallow embedding of the static-site generator: the `Cmd` process runner,
the package registry `pkgs`, the HTML template functions `header`, `footer`,
`pkgheader`, `pkgitem`, the per-package generation loop with its
`sed`-style link-fixing substitutions, and the index assembly.

Modelling conventions, following the specification's scoping:
* The shell / filesystem layer is treated as a write-append sink: an
  `echo "X" > f` is modelled as creating `f` with content `X`, an
  `echo "X" >> f` (and the extractor redirect `godoc ... >> f`) as
  appending `X`, and each `sed -i -e s@p@r@g f` as a whole-file textual
  substitution of `p` by `r` (the patterns contain no newline and no
  regex behaviour relevant to the fixed literal patterns used here).
* The external extractor (`godoc`) and the license file are oracles:
  parameters of the model.
* File contents are `List Char`; `String` literals transcribe the exact
  Python string values (Python `\"` sequences appear verbatim).
-/

/-- Fuelled core of greedy left-to-right global replacement: the semantics of
`sed s@p@r@g` for a literal pattern, and of Python `str.replace`.  The fuel is
always instantiated with the length of the subject string, which suffices. -/
def repFuel (p r : List Char) : Nat → List Char → List Char
  | _, [] => []
  | 0, s => s
  | Nat.succ n, c :: cs =>
    if p.isPrefixOf (c :: cs) && !p.isEmpty then
      r ++ repFuel p r n ((c :: cs).drop p.length)
    else
      c :: repFuel p r n cs

/-- Replace every occurrence of `p` in `s` by `r`, scanning left to right,
never rescanning replaced text. -/
def replaceAll (p r s : List Char) : List Char :=
  repFuel p r s.length s

/-- Decidable occurrence check: `p` occurs as a contiguous substring of `s`. -/
def occursB (p : List Char) : List Char → Bool
  | [] => p.isEmpty
  | c :: cs => p.isPrefixOf (c :: cs) || occursB p cs

-- ### Safe-named wrappers around library lemmas

theorem pref_of_isPrefixOf {p s : List Char} (h : p.isPrefixOf s = true) : p <+: s :=
  List.isPrefixOf_iff_prefix.mp h

theorem isPrefixOf_of_pref {p s : List Char} (h : p <+: s) : p.isPrefixOf s = true :=
  List.isPrefixOf_iff_prefix.mpr h

theorem sub_cons_iff {p l : List Char} {c : Char} :
    p <:+: c :: l ↔ p <+: c :: l ∨ p <:+: l :=
  List.infix_cons_iff

theorem pref_cons_cons {a b : Char} {l₁ l₂ : List Char} :
    a :: l₁ <+: b :: l₂ ↔ a = b ∧ l₁ <+: l₂ :=
  List.cons_prefix_cons

theorem pref_app_left (l₁ l₂ : List Char) : l₁ <+: l₁ ++ l₂ :=
  List.prefix_append l₁ l₂

theorem sub_app_right {p T : List Char} (r : List Char) (h : p <:+: T) : p <:+: r ++ T := by
  obtain ⟨u, v, rfl⟩ := h
  exact ⟨r ++ u, v, by simp⟩

theorem sub_of_pref {p s : List Char} (h : p <+: s) : p <:+: s := by
  obtain ⟨t, rfl⟩ := h
  exact ⟨[], t, rfl⟩

theorem sub_of_suf {p s : List Char} (h : p <:+ s) : p <:+: s := by
  obtain ⟨t, rfl⟩ := h
  exact ⟨t, [], by simp⟩

theorem drop_suf (n : Nat) (s : List Char) : s.drop n <:+ s :=
  List.drop_suffix n s

theorem sub_trans {a b c : List Char} (h₁ : a <:+: b) (h₂ : b <:+: c) : a <:+: c :=
  h₁.trans h₂

theorem drop_app_left (l₁ l₂ : List Char) : (l₁ ++ l₂).drop l₁.length = l₂ :=
  List.drop_left l₁ l₂

-- ### Basic facts about `repFuel` / `replaceAll`

theorem repFuel_nil (p r : List Char) (n : Nat) : repFuel p r n [] = [] := by
  cases n <;> rfl

theorem repFuel_fuel (p r : List Char) (hp : p ≠ []) :
    ∀ n m s, s.length ≤ n → s.length ≤ m → repFuel p r n s = repFuel p r m s := by
  intro n
  induction n with
  | zero =>
    intro m s hs _
    have : s = [] := List.eq_nil_of_length_eq_zero (Nat.le_zero.mp hs)
    subst this
    simp [repFuel_nil]
  | succ n ih =>
    intro m s hsn hsm
    cases s with
    | nil => simp [repFuel_nil]
    | cons c cs =>
      cases m with
      | zero => simp at hsm
      | succ m =>
        show repFuel p r (n+1) (c :: cs) = repFuel p r (m+1) (c :: cs)
        simp only [repFuel]
        by_cases h : (p.isPrefixOf (c :: cs) && !p.isEmpty) = true
        · rw [if_pos h, if_pos h]
          have hlen : ((c :: cs).drop p.length).length ≤ cs.length := by
            have hppos : 0 < p.length := List.length_pos.mpr hp
            simp only [List.length_drop, List.length_cons]
            omega
          rw [ih m ((c :: cs).drop p.length)
            (Nat.le_trans hlen (Nat.le_of_succ_le_succ hsn))
            (Nat.le_trans hlen (Nat.le_of_succ_le_succ hsm))]
        · rw [if_neg h, if_neg h]
          rw [ih m cs (Nat.le_of_succ_le_succ hsn) (Nat.le_of_succ_le_succ hsm)]

theorem replaceAll_nil (p r : List Char) : replaceAll p r [] = [] := rfl

theorem replaceAll_pos {p s : List Char} (r : List Char) (hp : p ≠ []) (h : p <+: s) :
    replaceAll p r s = r ++ replaceAll p r (s.drop p.length) := by
  cases s with
  | nil =>
    exact absurd ( List.prefix_nil.mp h) hp
  | cons c cs =>
    have hb : (p.isPrefixOf (c :: cs) && !p.isEmpty) = true := by
      simp [isPrefixOf_of_pref h, List.isEmpty_iff, hp]
    show repFuel p r (cs.length + 1) (c :: cs) = _
    simp only [repFuel, if_pos hb]
    congr 1
    apply repFuel_fuel p r hp
    · have hppos : 0 < p.length := List.length_pos.mpr hp
      simp only [List.length_drop, List.length_cons]
      omega
    · exact Nat.le_refl _

theorem replaceAll_neg {p : List Char} {c : Char} {cs : List Char} (r : List Char)
    (h : ¬ p <+: c :: cs) :
    replaceAll p r (c :: cs) = c :: replaceAll p r cs := by
  have hb : (p.isPrefixOf (c :: cs) && !p.isEmpty) = false := by
    have : p.isPrefixOf (c :: cs) = false := by
      cases hpb : p.isPrefixOf (c :: cs)
      · rfl
      · exact absurd (pref_of_isPrefixOf hpb) h
    simp [this]
  show repFuel p r (cs.length + 1) (c :: cs) = _
  simp only [repFuel, hb, Bool.false_eq_true, if_false]
  rfl

/-- If the pattern does not occur, replacement is the identity. -/
theorem replaceAll_id {p s : List Char} (r : List Char) (h : ¬ p <:+: s) :
    replaceAll p r s = s := by
  induction s with
  | nil => rfl
  | cons c cs ih =>
    have h1 : ¬ p <+: c :: cs := fun hc => h (sub_of_pref hc)
    have h2 : ¬ p <:+: cs := fun hc => h (sub_cons_iff.mpr (Or.inr hc))
    rw [replaceAll_neg r h1, ih h2]

theorem occursB_iff {p : List Char} (hp : p ≠ []) :
    ∀ s, occursB p s = true ↔ p <:+: s := by
  intro s
  induction s with
  | nil =>
    simp only [occursB, List.isEmpty_iff]
    constructor
    · intro h; exact absurd h hp
    · intro h
      exact absurd (List.eq_nil_of_infix_nil h) hp
  | cons c cs ih =>
    simp only [occursB, Bool.or_eq_true]
    constructor
    · rintro (h | h)
      · exact sub_of_pref (pref_of_isPrefixOf h)
      · exact sub_cons_iff.mpr (Or.inr (ih.mp h))
    · intro h
      rcases sub_cons_iff.mp h with h | h
      · exact Or.inl (isPrefixOf_of_pref h)
      · exact Or.inr (ih.mpr h)

-- ### Side conditions controlling pattern (re)creation at replacement boundaries

/-- No nonempty proper suffix of `p` (tail from position `j > 0`) starts `r`. -/
def NoSufPre (p r : List Char) : Prop :=
  ∀ j, 0 < j → j < p.length → ¬ (p.drop j <+: r)

/-- No nonempty proper front of `p` (first `k > 0` characters) ends `r`. -/
def NoPreSuf (p r : List Char) : Prop :=
  ∀ k, 0 < k → k < p.length → ¬ (p.take k <:+ r)

/-- Every nonempty proper front of `p` that ends `r` also ends `q`. -/
def TailCond (p q r : List Char) : Prop :=
  ∀ k, 0 < k → k < p.length → p.take k <:+ r → p.take k <:+ q

def noSufPreB (p r : List Char) : Bool :=
  (List.range p.length).all fun j => decide (j = 0) || !((p.drop j).isPrefixOf r)

def noPreSufB (p r : List Char) : Bool :=
  (List.range p.length).all fun k => decide (k = 0) || !((p.take k).isSuffixOf r)

def tailCondB (p q r : List Char) : Bool :=
  (List.range p.length).all fun k =>
    decide (k = 0) || !((p.take k).isSuffixOf r) || ((p.take k).isSuffixOf q)

theorem noSufPre_of_B {p r : List Char} (h : noSufPreB p r = true) : NoSufPre p r := by
  intro j hj hjlen hpre
  have hm : j ∈ List.range p.length := List.mem_range.mpr hjlen
  have h0 := List.all_eq_true.mp h j hm
  have hjne : j ≠ 0 := Nat.pos_iff_ne_zero.mp hj
  have hpb : (p.drop j).isPrefixOf r = true := isPrefixOf_of_pref hpre
  simp [hjne, hpb] at h0

theorem noPreSuf_of_B {p r : List Char} (h : noPreSufB p r = true) : NoPreSuf p r := by
  intro k hk hklen hsuf
  have hm : k ∈ List.range p.length := List.mem_range.mpr hklen
  have h0 := List.all_eq_true.mp h k hm
  have hkne : k ≠ 0 := Nat.pos_iff_ne_zero.mp hk
  have hsb : (p.take k).isSuffixOf r = true := List.isSuffixOf_iff_suffix.mpr hsuf
  simp [hkne, hsb] at h0

theorem tailCond_of_B {p q r : List Char} (h : tailCondB p q r = true) : TailCond p q r := by
  intro k hk hklen hsuf
  have hm : k ∈ List.range p.length := List.mem_range.mpr hklen
  have h0 := List.all_eq_true.mp h k hm
  have hkne : k ≠ 0 := Nat.pos_iff_ne_zero.mp hk
  have hsb : (p.take k).isSuffixOf r = true := List.isSuffixOf_iff_suffix.mpr hsuf
  simp only [hsb, Bool.not_true, Bool.or_eq_true, decide_eq_true_eq, Bool.false_eq_true,
    or_false, false_or] at h0
  rcases h0 with h0 | h0
  · exact absurd h0 hkne
  · exact List.isSuffixOf_iff_suffix.mp h0

-- ### Decomposing prefixes and substrings of an append

theorem pref_append_split {p : List Char} :
    ∀ u v : List Char, p <+: u ++ v → p <+: u ∨ ∃ y, p = u ++ y ∧ y <+: v := by
  intro u
  induction u generalizing p with
  | nil =>
    intro v h
    exact Or.inr ⟨p, rfl, h⟩
  | cons a u' ih =>
    intro v h
    cases p with
    | nil => exact Or.inl List.nil_prefix
    | cons b p' =>
      obtain ⟨hb, hp'⟩ := pref_cons_cons.mp h
      subst hb
      rcases ih v hp' with h1 | ⟨y, rfl, hy⟩
      · exact Or.inl (pref_cons_cons.mpr ⟨rfl, h1⟩)
      · exact Or.inr ⟨y, rfl, hy⟩

theorem suf_cons {x u : List Char} (a : Char) (h : x <:+ u) : x <:+ a :: u :=
  h.trans ⟨[a], rfl⟩

theorem sub_cons_of_sub {x u : List Char} (a : Char) (h : x <:+: u) : x <:+: a :: u :=
  sub_trans h ⟨[a], [], by simp⟩

theorem sub_append_split {p : List Char} :
    ∀ u v : List Char, p <:+: u ++ v →
      p <:+: u ∨ p <:+: v ∨
        ∃ x y, p = x ++ y ∧ x ≠ [] ∧ y ≠ [] ∧ x <:+ u ∧ y <+: v := by
  intro u
  induction u generalizing p with
  | nil =>
    intro v h
    exact Or.inr (Or.inl h)
  | cons a u' ih =>
    intro v h
    rcases sub_cons_iff.mp h with h1 | h1
    · rcases pref_append_split (a :: u') v h1 with h2 | ⟨y, rfl, hy⟩
      · exact Or.inl (sub_of_pref h2)
      · cases y with
        | nil => exact Or.inl (by simp)
        | cons d y' =>
          exact Or.inr (Or.inr ⟨a :: u', d :: y', rfl, by simp, by simp,
            List.suffix_rfl, hy⟩)
    · rcases ih v h1 with h2 | h2 | ⟨x, y, rfl, hx, hy, hxu, hyv⟩
      · exact Or.inl (sub_cons_of_sub a h2)
      · exact Or.inr (Or.inl h2)
      · exact Or.inr (Or.inr ⟨x, y, rfl, hx, hy, suf_cons a hxu, hyv⟩)

-- ### Reflecting prefixes of a replacement output back to the input

/-- If a nonempty proper tail of `p` starts the output of `replaceAll q r`,
and `r` can neither start such a tail nor sit inside `p`, then that tail
already started the input. -/
theorem drop_pref_reflect {p q r : List Char} (hq : q ≠ [])
    (h2 : NoSufPre p r) (h3 : ¬ r <:+: p) :
    ∀ n s, s.length ≤ n → ∀ j, 0 < j → j < p.length →
      p.drop j <+: replaceAll q r s → p.drop j <+: s := by
  intro n
  induction n with
  | zero =>
    intro s hs j _ hjlen hpre
    have : s = [] := List.eq_nil_of_length_eq_zero (Nat.le_zero.mp hs)
    subst this
    rw [replaceAll_nil] at hpre
    have : p.drop j = [] := List.prefix_nil.mp hpre
    have := List.length_drop j p ▸ congrArg List.length this
    simp at this
    omega
  | succ n ih =>
    intro s hs j hj hjlen hpre
    cases s with
    | nil =>
      rw [replaceAll_nil] at hpre
      have : p.drop j = [] := List.prefix_nil.mp hpre
      have := List.length_drop j p ▸ congrArg List.length this
      simp at this
      omega
    | cons c cs =>
      by_cases hm : q <+: c :: cs
      · obtain ⟨t, hqt⟩ := hm
        rw [← hqt, replaceAll_pos r hq (pref_app_left q t), drop_app_left] at hpre
        rcases pref_append_split r _ hpre with h | ⟨y, hy, _⟩
        · exact absurd h (h2 j hj hjlen)
        · exfalso
          apply h3
          have hrp : r <+: p.drop j := hy ▸ pref_app_left r y
          exact sub_trans (sub_of_pref hrp) (sub_of_suf (drop_suf j p))
      · rw [replaceAll_neg r hm] at hpre
        rw [List.drop_eq_getElem_cons hjlen] at hpre ⊢
        obtain ⟨hhead, htail⟩ := pref_cons_cons.mp hpre
        subst hhead
        by_cases hlast : j + 1 < p.length
        · have hcs : p.drop (j + 1) <+: cs := by
            apply ih cs (by simpa using Nat.le_of_succ_le_succ hs) (j + 1)
              (Nat.succ_pos j) hlast htail
          exact pref_cons_cons.mpr ⟨rfl, hcs⟩
        · have : p.drop (j + 1) = [] := by
            apply List.drop_eq_nil_of_le
            omega
          rw [this]
          exact pref_cons_cons.mpr ⟨rfl, List.nil_prefix⟩

/-- After replacing every occurrence of `p` by `r`, no occurrence of `p`
remains, provided `r` cannot recreate one: `p` is not inside `r`, `r` is not
inside `p`, no tail of `p` starts `r` and no front of `p` ends `r`. -/
theorem self_no_reocc {p r : List Char} (hp : p ≠ []) (h1 : ¬ p <:+: r)
    (h2 : NoSufPre p r) (h3 : ¬ r <:+: p) (h4 : NoPreSuf p r) :
    ∀ n s, s.length ≤ n → ¬ p <:+: replaceAll p r s := by
  intro n
  induction n with
  | zero =>
    intro s hs hcon
    have : s = [] := List.eq_nil_of_length_eq_zero (Nat.le_zero.mp hs)
    subst this
    rw [replaceAll_nil] at hcon
    exact hp (List.eq_nil_of_infix_nil hcon)
  | succ n ih =>
    intro s hs hcon
    cases s with
    | nil =>
      rw [replaceAll_nil] at hcon
      exact hp (List.eq_nil_of_infix_nil hcon)
    | cons c cs =>
      by_cases hm : p <+: c :: cs
      · obtain ⟨t, hqt⟩ := hm
        rw [← hqt, replaceAll_pos r hp (pref_app_left p t), drop_app_left] at hcon
        have htn : t.length ≤ n := by
          have hlq := congrArg List.length hqt
          simp only [List.length_append, List.length_cons] at hlq
          have hppos : 0 < p.length := List.length_pos.mpr hp
          have hs' : cs.length + 1 ≤ n + 1 := by simpa using hs
          omega
        rcases sub_append_split r _ hcon with h | h | ⟨x, y, hxy, hx, hy, hxr, _⟩
        · exact h1 h
        · exact ih t htn h
        · have hxtake : x = p.take x.length := by
            rw [hxy, List.take_left]
          have hxlt : x.length < p.length := by
            have := congrArg List.length hxy
            simp only [List.length_append] at this
            have : p.length = x.length + y.length := this
            have hy0 : 0 < y.length := List.length_pos.mpr hy
            omega
          have hx0 : 0 < x.length := List.length_pos.mpr hx
          exact h4 x.length hx0 hxlt (hxtake ▸ hxr)
      · rw [replaceAll_neg r hm] at hcon
        rcases sub_cons_iff.mp hcon with h | h
        · cases p with
          | nil => exact hp rfl
          | cons d p' =>
            obtain ⟨hd, hp'⟩ := pref_cons_cons.mp h
            apply hm
            cases p' with
            | nil => exact pref_cons_cons.mpr ⟨hd, List.nil_prefix⟩
            | cons e p'' =>
              have hlen : 1 < (d :: e :: p'').length := by simp
              have hdrop : (d :: e :: p'').drop 1 <+: cs := by
                apply drop_pref_reflect hp h2 h3 cs.length cs (Nat.le_refl _) 1
                  Nat.one_pos hlen
                simpa using hp'
              exact pref_cons_cons.mpr ⟨hd, by simpa using hdrop⟩
        · exact ih cs (Nat.le_of_succ_le_succ hs) h

/-- Replacing `q` by `r` cannot create an occurrence of an absent pattern `p`,
provided `p` is not inside `r`, `r` is not inside `p`, no tail of `p` starts
`r`, and any front of `p` ending `r` already ends `q` (so a straddling
occurrence would have been present in the input). -/
theorem other_no_occ {p q r : List Char} (hp : p ≠ []) (hq : q ≠ [])
    (h1 : ¬ p <:+: r) (h2 : NoSufPre p r) (h3 : ¬ r <:+: p) (h4 : TailCond p q r) :
    ∀ n s, s.length ≤ n → ¬ p <:+: s → ¬ p <:+: replaceAll q r s := by
  intro n
  induction n with
  | zero =>
    intro s hs hps hcon
    have : s = [] := List.eq_nil_of_length_eq_zero (Nat.le_zero.mp hs)
    subst this
    rw [replaceAll_nil] at hcon
    exact hp (List.eq_nil_of_infix_nil hcon)
  | succ n ih =>
    intro s hs hps hcon
    cases s with
    | nil =>
      rw [replaceAll_nil] at hcon
      exact hp (List.eq_nil_of_infix_nil hcon)
    | cons c cs =>
      by_cases hm : q <+: c :: cs
      · obtain ⟨t, hqt⟩ := hm
        rw [← hqt, replaceAll_pos r hq (pref_app_left q t), drop_app_left] at hcon
        have htn : t.length ≤ n := by
          have hlq := congrArg List.length hqt
          simp only [List.length_append, List.length_cons] at hlq
          have hqpos : 0 < q.length := List.length_pos.mpr hq
          have hs' : cs.length + 1 ≤ n + 1 := by simpa using hs
          omega
        have hpt : ¬ p <:+: t := by
          intro hcon2
          exact hps (hqt ▸ sub_trans hcon2 (sub_of_suf ⟨q, rfl⟩))
        rcases sub_append_split r _ hcon with h | h | ⟨x, y, hxy, hx, hy, hxr, hyT⟩
        · exact h1 h
        · exact ih t htn hpt h
        · -- a straddling occurrence: `x` ends `r`, `y` starts the rest.
          have hxtake : x = p.take x.length := by rw [hxy, List.take_left]
          have hxlt : x.length < p.length := by
            have hl := congrArg List.length hxy
            simp only [List.length_append] at hl
            have hy0 : 0 < y.length := List.length_pos.mpr hy
            omega
          have hx0 : 0 < x.length := List.length_pos.mpr hx
          have hxq : p.take x.length <:+ q := h4 x.length hx0 hxlt (hxtake ▸ hxr)
          have hydrop : y = p.drop x.length := by
            have h5 := congrArg (List.drop x.length) hxy
            rw [drop_app_left] at h5
            exact h5.symm
          have hyt : y <+: t := by
            rw [hydrop] at hyT ⊢
            exact drop_pref_reflect hq h2 h3 t.length t (Nat.le_refl _)
              x.length hx0 hxlt hyT
          apply hps
          obtain ⟨w, hwq⟩ := hxq
          obtain ⟨t', hty⟩ := hyt
          rw [← hqt, ← hwq, ← hty, ← hxtake]
          exact ⟨w, t', by rw [hxy]; simp⟩
      · rw [replaceAll_neg r hm] at hcon
        have hpcs : ¬ p <:+: cs := fun h => hps (sub_cons_of_sub c h)
        rcases sub_cons_iff.mp hcon with h | h
        · cases p with
          | nil => exact hp rfl
          | cons d p' =>
            obtain ⟨hd, hp'⟩ := pref_cons_cons.mp h
            apply hps
            apply sub_of_pref
            cases p' with
            | nil => exact pref_cons_cons.mpr ⟨hd, List.nil_prefix⟩
            | cons e p'' =>
              have hlen : 1 < (d :: e :: p'').length := by simp
              have hdrop : (d :: e :: p'').drop 1 <+: cs := by
                apply drop_pref_reflect hq h2 h3 cs.length cs (Nat.le_refl _) 1
                  Nat.one_pos hlen
                simpa using hp'
              exact pref_cons_cons.mpr ⟨hd, by simpa using hdrop⟩
        · exact ih cs (Nat.le_of_succ_le_succ hs) hpcs h

/-- A nonempty proper tail of `p` that starts the input still starts the
output of `replaceAll q r`: the scan cannot have consumed it, because no tail
of `p` starts `q` and `q` does not sit inside `p`. -/
theorem pres_pref {p q r : List Char} (hq : q ≠ [])
    (hb : ¬ q <:+: p) (hd : NoSufPre p q) :
    ∀ n s, s.length ≤ n → ∀ j, 0 < j → j < p.length →
      p.drop j <+: s → p.drop j <+: replaceAll q r s := by
  intro n
  induction n with
  | zero =>
    intro s hs j _ hjlen hpre
    have : s = [] := List.eq_nil_of_length_eq_zero (Nat.le_zero.mp hs)
    subst this
    rw [replaceAll_nil]
    exact hpre
  | succ n ih =>
    intro s hs j hj hjlen hpre
    cases s with
    | nil => rw [replaceAll_nil]; exact hpre
    | cons c cs =>
      by_cases hm : q <+: c :: cs
      · exfalso
        obtain ⟨t, hqt⟩ := hm
        rw [← hqt] at hpre
        rcases pref_append_split q t hpre with h | ⟨y, hyeq, _⟩
        · exact hd j hj hjlen h
        · apply hb
          have : q <+: p.drop j := hyeq ▸ pref_app_left q y
          exact sub_trans (sub_of_pref this) (sub_of_suf (drop_suf j p))
      · rw [replaceAll_neg r hm]
        rw [List.drop_eq_getElem_cons hjlen] at hpre ⊢
        obtain ⟨hhead, htail⟩ := pref_cons_cons.mp hpre
        subst hhead
        by_cases hlast : j + 1 < p.length
        · have hcs : p.drop (j + 1) <+: replaceAll q r cs :=
            ih cs (by simpa using Nat.le_of_succ_le_succ hs) (j + 1)
              (Nat.succ_pos j) hlast htail
          exact pref_cons_cons.mpr ⟨rfl, hcs⟩
        · have hnil : p.drop (j + 1) = [] := by
            apply List.drop_eq_nil_of_le
            omega
          rw [hnil]
          exact pref_cons_cons.mpr ⟨rfl, List.nil_prefix⟩

/-- Occurrence preservation: if `p` occurs in `s` and `p` and `q` cannot
overlap (neither is inside the other, no tail of either starts the other),
then `p` still occurs after every `q` is replaced. -/
theorem pres_occ {p q r : List Char} (hp : p ≠ []) (hq : q ≠ [])
    (ha : ¬ p <:+: q) (hb : ¬ q <:+: p) (hc : NoSufPre q p) (hd : NoSufPre p q) :
    ∀ n s, s.length ≤ n → p <:+: s → p <:+: replaceAll q r s := by
  intro n
  induction n with
  | zero =>
    intro s hs hocc
    have : s = [] := List.eq_nil_of_length_eq_zero (Nat.le_zero.mp hs)
    subst this
    exact absurd (List.eq_nil_of_infix_nil hocc) hp
  | succ n ih =>
    intro s hs hocc
    cases s with
    | nil => exact absurd (List.eq_nil_of_infix_nil hocc) hp
    | cons c cs =>
      by_cases hm : q <+: c :: cs
      · obtain ⟨t, hqt⟩ := hm
        rw [← hqt, replaceAll_pos r hq (pref_app_left q t), drop_app_left]
        rw [← hqt] at hocc
        have htn : t.length ≤ n := by
          have hlq := congrArg List.length hqt
          simp only [List.length_append, List.length_cons] at hlq
          have hqpos : 0 < q.length := List.length_pos.mpr hq
          have hs' : cs.length + 1 ≤ n + 1 := by simpa using hs
          omega
        rcases sub_append_split q t hocc with h | h | ⟨x, y, hxy, hx, hy, hxq, hyt⟩
        · exact absurd h ha
        · exact sub_app_right r (ih t htn h)
        · -- an occurrence straddling the match is impossible: it would make
          -- a tail of `q` start `p`, or put `q` inside `p`.
          exfalso
          have hxtake : x = p.take x.length := by rw [hxy, List.take_left]
          obtain ⟨w, hwq⟩ := hxq
          cases w with
          | nil =>
            apply hb
            simp only [List.nil_append] at hwq
            have : q <+: p := by
              rw [← hwq, hxtake]
              exact List.take_prefix x.length p
            exact sub_of_pref this
          | cons a w' =>
            have hwlt : (a :: w').length < q.length := by
              have := congrArg List.length hwq
              simp only [List.length_append] at this
              have hx0 : 0 < x.length := List.length_pos.mpr hx
              omega
            apply hc (a :: w').length (by simp) hwlt
            have : q.drop (a :: w').length = x := by
              rw [← hwq, drop_app_left]
            rw [this, hxtake]
            exact List.take_prefix x.length p
      · rw [replaceAll_neg r hm]
        rcases sub_cons_iff.mp hocc with h | h
        · cases p with
          | nil => exact absurd rfl hp
          | cons d p' =>
            obtain ⟨hd', hp'⟩ := pref_cons_cons.mp h
            apply sub_of_pref
            cases p' with
            | nil => exact pref_cons_cons.mpr ⟨hd', List.nil_prefix⟩
            | cons e p'' =>
              have hlen : 1 < (d :: e :: p'').length := by simp
              have hdrop : (d :: e :: p'').drop 1 <+: replaceAll q r cs := by
                apply pres_pref hq hb hd cs.length cs (Nat.le_refl _) 1
                  Nat.one_pos hlen
                simpa using hp'
              exact pref_cons_cons.mpr ⟨hd', by simpa using hdrop⟩
        · exact sub_cons_of_sub c (ih cs (Nat.le_of_succ_le_succ hs) h)

/-- If the pattern occurs, the replacement text occurs in the output. -/
theorem repl_occ {p r : List Char} (hp : p ≠ []) :
    ∀ n s, s.length ≤ n → p <:+: s → r <:+: replaceAll p r s := by
  intro n
  induction n with
  | zero =>
    intro s hs hocc
    have : s = [] := List.eq_nil_of_length_eq_zero (Nat.le_zero.mp hs)
    subst this
    exact absurd (List.eq_nil_of_infix_nil hocc) hp
  | succ n ih =>
    intro s hs hocc
    cases s with
    | nil => exact absurd (List.eq_nil_of_infix_nil hocc) hp
    | cons c cs =>
      by_cases hm : p <+: c :: cs
      · obtain ⟨t, hqt⟩ := hm
        rw [← hqt, replaceAll_pos r hp (pref_app_left p t), drop_app_left]
        exact sub_of_pref (pref_app_left r _)
      · rw [replaceAll_neg r hm]
        have h : p <:+: cs := by
          rcases sub_cons_iff.mp hocc with h | h
          · exact absurd h hm
          · exact h
        exact sub_cons_of_sub c (ih cs (Nat.le_of_succ_le_succ hs) h)

-- ### Fuel-free wrappers

theorem self_no_reocc' {p r : List Char} (hp : p ≠ []) (h1 : ¬ p <:+: r)
    (h2 : NoSufPre p r) (h3 : ¬ r <:+: p) (h4 : NoPreSuf p r) (s : List Char) :
    ¬ p <:+: replaceAll p r s :=
  self_no_reocc hp h1 h2 h3 h4 s.length s (Nat.le_refl _)

theorem other_no_occ' {p q r : List Char} (hp : p ≠ []) (hq : q ≠ [])
    (h1 : ¬ p <:+: r) (h2 : NoSufPre p r) (h3 : ¬ r <:+: p) (h4 : TailCond p q r)
    {s : List Char} (hps : ¬ p <:+: s) : ¬ p <:+: replaceAll q r s :=
  other_no_occ hp hq h1 h2 h3 h4 s.length s (Nat.le_refl _) hps

theorem pres_occ' {p q r : List Char} (hp : p ≠ []) (hq : q ≠ [])
    (ha : ¬ p <:+: q) (hb : ¬ q <:+: p) (hc : NoSufPre q p) (hd : NoSufPre p q)
    {s : List Char} (hocc : p <:+: s) : p <:+: replaceAll q r s :=
  pres_occ hp hq ha hb hc hd s.length s (Nat.le_refl _) hocc

theorem repl_occ' {p r : List Char} (hp : p ≠ []) {s : List Char}
    (hocc : p <:+: s) : r <:+: replaceAll p r s :=
  repl_occ hp s.length s (Nat.le_refl _) hocc

-- ### Embedding of `xgendoc.py`

/-- Python `str.replace(pat, rep)`: greedy left-to-right global replacement. -/
def pyReplace (s pat rep : String) : String :=
  ⟨replaceAll pat.data rep.data s.data⟩

/-- Python whitespace, as recognised by `str.strip()`. -/
def isPySpace (c : Char) : Bool :=
  c = ' ' || c = '\t' || c = '\n' || c = '\x0d' || c = '\x0b' || c = '\x0c'

def stripData (l : List Char) : List Char :=
  ((l.dropWhile isPySpace).reverse.dropWhile isPySpace).reverse

/-- Python `str.strip()`. -/
def pyStrip (s : String) : String :=
  ⟨stripData s.data⟩

/-- `Cmd(command, verbose, debug)` (xgendoc.py lines 9-20), modelled over a
shell oracle `run` mapping a command string to its captured
`(stdout, stderr)`.  The `debug` branch executes `print cmd` where no name
`cmd` is bound anywhere (the function is `Cmd`, its parameter `command`), so
Python raises a `NameError` before `subprocess.Popen` runs; otherwise the
command is spawned, stdout is returned as read and stderr is returned
`.strip()`-ed. -/
def Cmd (run : String → String × String) (command : String)
    (verbose : Bool) (debug : Bool) : Except String (String × String) :=
  if debug then
    Except.error "NameError: name cmd is not defined"
  else
    let out := (run command).1
    let err := pyStrip (run command).2
    -- `verbose` only prints the captured streams; it does not affect them.
    let _ := verbose
    Except.ok (out, err)

/-- The module registry `pkgs` (xgendoc.py lines 22-48), in source order. -/
def pkgs : List (String × String) :=
  [ ("ana"              , "analytical solutions"),
    ("shp"              , "shape (interpolation) structures and quadrature points"),
    ("mdl/generic"      , "generic models (placeholder for parameters set)"),
    ("mdl/solid"        , "models for solids"),
    ("mdl/fluid"        , "models for fluids (liquid / gas)"),
    ("mdl/conduct"      , "models for liquid conductivity within porous media"),
    ("mdl/retention"    , "models for liquid retention within porous media"),
    ("mdl/diffusion"    , "models for diffusion applications"),
    ("mdl/thermomech"   , "models for thermo-mechanical applications"),
    ("mdl/porous"       , "models for porous media (TPM-based)"),
    ("inp"              , "input data (.sim = simulation, .mat = materials, .msh = meshes)"),
    ("ele"              , "finite elements"),
    ("ele/solid"        , "elements for solid mechanics"),
    ("ele/seepage"      , "elements for seepage problems (with liquid and/or gases)"),
    ("ele/diffusion"    , "elements for diffusion(-like) problems"),
    ("ele/thermomech"   , "elements for thermo-mechanical applications"),
    ("ele/porous"       , "elements for porous media simulations (TPM)"),
    ("fem"              , "finite element method (main, domain, solver, ...)"),
    ("tests"            , "(unit) tests of complete simulations"),
    ("tests/solid"      , "tests of solid mechanics applications"),
    ("tests/seepage"    , "tests of seepage problems"),
    ("tests/diffusion"  , "tests of diffusion problems"),
    ("tests/thermomech" , "tests of thermo-mechanical applications"),
    ("tests/porous"     , "tests of porous media simulations"),
    ("out"              , "output routines (post-processing and plotting)") ]

def odir : String := "doc/"

def idxfn : String := odir ++ "index.html"

/-- `header(title)` (lines 54-68): the Python `%s` formatting is string
concatenation around the title.  `\"` sequences of the Python value are kept
verbatim. -/
def header (title : String) : String :=
  "<html>\n<head>\n<meta http-equiv=\\\"Content-Type\\\" content=\\\"text/html; charset=utf-8\\\">\n<meta name=\\\"viewport\\\" content=\\\"width=device-width, initial-scale=1\\\">\n<meta name=\\\"theme-color\\\" content=\\\"#375EAB\\\">\n<title>"
  ++ title ++
  "</title>\n<link type=\\\"text/css\\\" rel=\\\"stylesheet\\\" href=\\\"static/style.css\\\">\n<script type=\\\"text/javascript\\\" src=\\\"static/godocs.js\\\"></script>\n<style type=\\\"text/css\\\"></style>\n</head>\n<body>\n<div id=\\\"page\\\" class=\\wide\\\">\n<div class=\\\"container\\\">\n"

/-- `footer()` (lines 70-82); the license text read from the `LICENSE` file is
a parameter. -/
def footer (licen : String) : String :=
  "\n<div id=\\\"footer\\\">\n<br /><br />\n<hr>\n<pre class=\\\"copyright\\\">\n"
  ++ licen ++
  "</pre><!-- copyright -->\n</div><!-- footer -->\n\n</div><!-- container -->\n</div><!-- page -->\n</body>\n</html>"

/-- `pkgheader(pkg)` (lines 84-85). -/
def pkgheader (pkg : String × String) : String :=
  header ("Gofem &ndash; package " ++ pkg.1) ++
  "<h1>Gofem &ndash; <b>" ++ pkg.1 ++ "</b> &ndash; " ++ pkg.2 ++ "</h1>"

/-- `pkgitem(pkg)` (lines 87-89), with its own `fnk` computation. -/
def pkgitem (pkg : String × String) : String :=
  "<dd><a href=\\\"xx" ++ pyReplace pkg.1 "/" "-" ++ ".html\\\"><b>" ++ pkg.1
  ++ "</b>: " ++ pkg.2 ++ "</a></dd>"

/-- The per-module output path (lines 96-97): `odir+'xx'+fnk+'.html'`. -/
def fn (pkg : String × String) : String :=
  odir ++ "xx" ++ pyReplace pkg.1 "/" "-" ++ ".html"

/-- The `subdirs` assignment chain (lines 109-156): a sequence of
independent `if` statements over `pkg[0]`, starting from `[]`; the guards are
mutually exclusive, the last matching one wins. -/
def subdirsOf (pid : String) : List String :=
  let s0 : List String := []
  let s1 := if pid = "mdl/solid" then ["data"] else s0
  let s2 := if pid = "mdl/porous" then ["data"] else s1
  let s3 := if pid = "inp" then ["data"] else s2
  let s4 := if pid = "ele" then ["diffusion", "porous", "seepage", "solid", "thermomech"] else s3
  let s5 := if pid = "ele/solid" then ["data"] else s4
  let s6 := if pid = "ele/seepage" then ["data"] else s5
  let s7 := if pid = "ele/diffusion" then ["data"] else s6
  let s8 := if pid = "ele/porous" then ["data"] else s7
  let s9 := if pid = "fem" then ["data"] else s8
  let s10 := if pid = "tests" then ["data", "diffusion", "porous", "seepage", "solid", "thermomech"] else s9
  let s11 := if pid = "tests/solid" then ["cmp", "data"] else s10
  let s12 := if pid = "tests/seepage" then ["data"] else s11
  let s13 := if pid = "tests/diffusion" then ["data"] else s12
  let s14 := if pid = "tests/thermomech" then ["data"] else s13
  let s15 := if pid = "tests/porous" then ["data"] else s14
  let s16 := if pid = "out" then ["cmp", "data"] else s15
  s16

-- The sed substitutions (lines 105-106, 158-159, 163): fixed literal
-- pattern/replacement pairs (their occasional regex `.` would only widen
-- matches; the spec describes them as literal textual substitutions).

def pat1 : List Char := "/src/target".data

def rep1 (pid : String) : List Char :=
  ("https://github.com/cpmech/gofem/blob/master/" ++ pid).data

def pat2 : List Char := "/src/github.com/cpmech/gofem/".data

def rep2 : List Char := "https://github.com/cpmech/gofem/blob/master/".data

def pat3 (d : String) : List Char := ("<a href=\"" ++ d ++ "/\">").data

def rep3 (pid d : String) : List Char :=
  ("<a href=\"https://github.com/cpmech/gofem/tree/master/" ++ pid ++ "/" ++ d ++ "\">").data

def pat4 : List Char := "<td colspan=\"2\"><a href=\"..\">..</a></td>".data

def rep4 : List Char := "<td></td>".data

/-- The ordered substitution rules the loop runs over a page file:
rule 1, rule 2, one rule 3 per configured subdirectory, rule 4. -/
def rules (pid : String) : List (List Char × List Char) :=
  [(pat1, rep1 pid), (pat2, rep2)]
  ++ (subdirsOf pid).map (fun d => (pat3 d, rep3 pid d))
  ++ [(pat4, rep4)]

/-- Apply an ordered list of substitution rules to a file content. -/
def applyRules (rs : List (List Char × List Char)) (s : List Char) : List Char :=
  rs.foldl (fun t pr => replaceAll pr.1 pr.2 t) s

/-- The Link Fixer: the sed commands applied in source order to a file
content. -/
def fixLinks (pid : String) (s : List Char) : List Char :=
  applyRules (rules pid) s

-- ### The filesystem / effect model

/-- A filesystem: map from path to content (`none` = absent). -/
def FS : Type := String → Option (List Char)

def emptyFS : FS := fun _ => none

/-- The three shell effects the generator issues through `Cmd`:
`echo "v" > f`, `echo "v" >> f` (or `godoc ... >> f`), and
`sed -i -e s@p@r@g f`. -/
inductive Eff where
  | create : String → List Char → Eff
  | append : String → List Char → Eff
  | sed : String → List Char → List Char → Eff

def upd (fs : FS) (f : String) (v : List Char) : FS :=
  fun g => if g = f then some v else fs g

def applyEff (fs : FS) : Eff → FS
  | Eff.create f v => upd fs f v
  | Eff.append f v => upd fs f ((fs f).getD [] ++ v)
  | Eff.sed f p r =>
    match fs f with
    | some v => upd fs f (replaceAll p r v)
    | none => fs

def applyEffs (effs : List Eff) (fs : FS) : FS :=
  effs.foldl applyEff fs

/-- The commands issued for one module record (lines 99-163, one loop
iteration), given the extractor output `out` for that module. -/
def pkgEffects (licen : String) (out : List Char) (pkg : String × String) : List Eff :=
  [ Eff.create (fn pkg) (pkgheader pkg).data,
    Eff.append (fn pkg) out,
    Eff.append (fn pkg) (footer licen).data,
    Eff.append idxfn (pkgitem pkg).data ]
  ++ (rules pkg.1).map (fun pr => Eff.sed (fn pkg) pr.1 pr.2)

/-- The index-initialisation commands (lines 91-93). -/
def idxInitEffs : List Eff :=
  [ Eff.create idxfn (header "Gofem &ndash; Documentation").data,
    Eff.append idxfn "<h1>Gofem &ndash; Documentation</h1>".data,
    Eff.append idxfn "<h2 id=\\\"pkg-index\\\">Index</h2>\n<div id=\\\"manual-nav\\\">\n<dl>".data ]

/-- The index-finalisation commands (lines 165-166). -/
def idxFinalEffs (licen : String) : List Eff :=
  [ Eff.append idxfn "</dl>\n</div><!-- manual-nav -->".data,
    Eff.append idxfn (footer licen).data ]

/-- The full command trace of one run: index init, the 25 per-module blocks
in registry order, index finalisation.  `oracle` maps a module identifier to
the extractor's standard output for it. -/
def trace (licen : String) (oracle : String → List Char) : List Eff :=
  idxInitEffs
  ++ pkgs.flatMap (fun pkg => pkgEffects licen (oracle pkg.1) pkg)
  ++ idxFinalEffs licen

/-- The filesystem produced by one full run. -/
def mainFS (licen : String) (oracle : String → List Char) : FS :=
  applyEffs (trace licen oracle) emptyFS

-- ### Filesystem lemmas

def effPath : Eff → String
  | Eff.create f _ => f
  | Eff.append f _ => f
  | Eff.sed f _ _ => f

theorem applyEff_frame {fs : FS} {e : Eff} {f : String} (h : effPath e ≠ f) :
    applyEff fs e f = fs f := by
  have hne : f ≠ effPath e := fun hh => h hh.symm
  cases e with
  | create g v =>
    simp only [effPath] at hne
    show upd fs g v f = fs f
    simp only [upd]
    rw [if_neg hne]
  | append g v =>
    simp only [effPath] at hne
    show upd fs g ((fs g).getD [] ++ v) f = fs f
    simp only [upd]
    rw [if_neg hne]
  | sed g p r =>
    simp only [effPath] at hne
    simp only [applyEff]
    cases hv : fs g with
    | none => rfl
    | some v =>
      simp only [upd]
      rw [if_neg hne]

theorem applyEffs_append (a b : List Eff) (fs : FS) :
    applyEffs (a ++ b) fs = applyEffs b (applyEffs a fs) := by
  unfold applyEffs
  rw [List.foldl_append]

theorem applyEffs_frame {l : List Eff} {f : String} (h : ∀ e ∈ l, effPath e ≠ f) :
    ∀ fs : FS, applyEffs l fs f = fs f := by
  induction l with
  | nil => intro fs; rfl
  | cons e l' ih =>
    intro fs
    show applyEffs l' (applyEff fs e) f = fs f
    rw [ih (fun e' he' => h e' (List.mem_cons_of_mem e he')),
      applyEff_frame (h e (List.mem_cons_self e l'))]

theorem upd_self (fs : FS) (f : String) (v : List Char) : upd fs f v f = some v := by
  simp [upd]

/-- Applying the mapped sed commands for a rule list folds the substitutions
over the file content. -/
theorem sed_fold (f : String) :
    ∀ (rs : List (List Char × List Char)) (fs : FS) (v : List Char), fs f = some v →
      applyEffs (rs.map (fun pr => Eff.sed f pr.1 pr.2)) fs f
        = some (rs.foldl (fun t pr => replaceAll pr.1 pr.2 t) v) := by
  intro rs
  induction rs with
  | nil => intro fs v hv; exact hv
  | cons pr rs' ih =>
    intro fs v hv
    show applyEffs (rs'.map _) (applyEff fs (Eff.sed f pr.1 pr.2)) f = _
    have hstep : applyEff fs (Eff.sed f pr.1 pr.2) f = some (replaceAll pr.1 pr.2 v) := by
      simp only [applyEff, hv]
      exact upd_self fs f _
    rw [ih _ _ hstep]
    rfl

/-- Other files are untouched by a module's command block. -/
theorem pkgEffects_frame {licen : String} {out : List Char} {pkg : String × String}
    {g : String} (h1 : g ≠ fn pkg) (h2 : g ≠ idxfn) (fs : FS) :
    applyEffs (pkgEffects licen out pkg) fs g = fs g := by
  apply applyEffs_frame _ fs
  intro e he
  rcases List.mem_append.mp he with h | h
  · simp only [List.mem_cons, List.not_mem_nil, or_false] at h
    rcases h with rfl | rfl | rfl | rfl
    · exact fun hh => h1 hh.symm
    · exact fun hh => h1 hh.symm
    · exact fun hh => h1 hh.symm
    · exact fun hh => h2 hh.symm
  · obtain ⟨pr, hpr, he'⟩ := List.mem_map.mp h
    subst he'
    exact fun hh => h1 hh.symm

/-- The content of a module's own page after its command block: page header,
extractor output, footer, then the link-fixing substitutions. -/
theorem pkgEffects_self (licen : String) (out : List Char) (pkg : String × String)
    (fs : FS) (hne : fn pkg ≠ idxfn) :
    applyEffs (pkgEffects licen out pkg) fs (fn pkg)
      = some (fixLinks pkg.1 ((pkgheader pkg).data ++ out ++ (footer licen).data)) := by
  show applyEffs _ (applyEff fs (Eff.create (fn pkg) (pkgheader pkg).data)) (fn pkg) = _
  set fs1 := applyEff fs (Eff.create (fn pkg) (pkgheader pkg).data) with hfs1
  have h1 : fs1 (fn pkg) = some (pkgheader pkg).data := upd_self fs (fn pkg) _
  show applyEffs _ (applyEff fs1 (Eff.append (fn pkg) out)) (fn pkg) = _
  set fs2 := applyEff fs1 (Eff.append (fn pkg) out) with hfs2
  have h2 : fs2 (fn pkg) = some ((pkgheader pkg).data ++ out) := by
    rw [hfs2]
    show upd fs1 (fn pkg) ((fs1 (fn pkg)).getD [] ++ out) (fn pkg) = _
    rw [upd_self, h1]
    rfl
  show applyEffs _ (applyEff fs2 (Eff.append (fn pkg) (footer licen).data)) (fn pkg) = _
  set fs3 := applyEff fs2 (Eff.append (fn pkg) (footer licen).data) with hfs3
  have h3 : fs3 (fn pkg) = some ((pkgheader pkg).data ++ out ++ (footer licen).data) := by
    rw [hfs3]
    show upd fs2 (fn pkg) ((fs2 (fn pkg)).getD [] ++ (footer licen).data) (fn pkg) = _
    rw [upd_self, h2]
    rfl
  show applyEffs _ (applyEff fs3 (Eff.append idxfn (pkgitem pkg).data)) (fn pkg) = _
  set fs4 := applyEff fs3 (Eff.append idxfn (pkgitem pkg).data) with hfs4
  have h4 : fs4 (fn pkg) = some ((pkgheader pkg).data ++ out ++ (footer licen).data) := by
    rw [hfs4, applyEff_frame (by simpa only [effPath] using fun hh => hne hh.symm), h3]
  exact sed_fold (fn pkg) (rules pkg.1) fs4 _ h4

/-- A module's command block appends exactly its index entry to the index. -/
theorem pkgEffects_idx (licen : String) (out : List Char) (pkg : String × String)
    (fs : FS) (v : List Char) (hne : fn pkg ≠ idxfn) (hv : fs idxfn = some v) :
    applyEffs (pkgEffects licen out pkg) fs idxfn = some (v ++ (pkgitem pkg).data) := by
  show applyEffs _ (applyEff fs (Eff.create (fn pkg) (pkgheader pkg).data)) idxfn = _
  set fs1 := applyEff fs (Eff.create (fn pkg) (pkgheader pkg).data) with hfs1
  have h1 : fs1 idxfn = some v := by
    rw [hfs1, applyEff_frame (by simpa only [effPath] using hne), hv]
  show applyEffs _ (applyEff fs1 (Eff.append (fn pkg) out)) idxfn = _
  set fs2 := applyEff fs1 (Eff.append (fn pkg) out) with hfs2
  have h2 : fs2 idxfn = some v := by
    rw [hfs2, applyEff_frame (by simpa only [effPath] using hne), h1]
  show applyEffs _ (applyEff fs2 (Eff.append (fn pkg) (footer licen).data)) idxfn = _
  set fs3 := applyEff fs2 (Eff.append (fn pkg) (footer licen).data) with hfs3
  have h3 : fs3 idxfn = some v := by
    rw [hfs3, applyEff_frame (by simpa only [effPath] using hne), h2]
  show applyEffs _ (applyEff fs3 (Eff.append idxfn (pkgitem pkg).data)) idxfn = _
  set fs4 := applyEff fs3 (Eff.append idxfn (pkgitem pkg).data) with hfs4
  have h4 : fs4 idxfn = some (v ++ (pkgitem pkg).data) := by
    rw [hfs4]
    show upd fs3 idxfn ((fs3 idxfn).getD [] ++ (pkgitem pkg).data) idxfn = _
    rw [upd_self, h3]
    rfl
  apply Eq.trans _ h4
  apply applyEffs_frame
  intro e he
  obtain ⟨pr, hpr, he'⟩ := List.mem_map.mp he
  subst he'
  simpa only [effPath] using hne

/-- Command blocks of other modules do not touch a file `g` that is neither
their page nor the index. -/
theorem blocks_frame (licen : String) (oracle : String → List Char) {g : String}
    (hg : g ≠ idxfn) :
    ∀ (l : List (String × String)), (∀ pk ∈ l, fn pk ≠ g) →
      ∀ fs : FS, applyEffs (l.flatMap (fun pk => pkgEffects licen (oracle pk.1) pk)) fs g = fs g := by
  intro l
  induction l with
  | nil => intro _ fs; rfl
  | cons pk0 l' ih =>
    intro hne fs
    rw [List.flatMap_cons, applyEffs_append]
    rw [ih (fun pk hpk => hne pk (List.mem_cons_of_mem pk0 hpk))]
    exact pkgEffects_frame (fun hh => hne pk0 (List.mem_cons_self pk0 l') hh.symm) hg fs

/-- After processing a list of module blocks containing `pkg` (with pairwise
distinct page files, none equal to the index file), `pkg`'s page holds the
fixed concatenation of its three chunks. -/
theorem fold_blocks_page (licen : String) (oracle : String → List Char) :
    ∀ (l : List (String × String)) (pkg : String × String), pkg ∈ l →
      (l.map fn).Nodup → (∀ pk ∈ l, fn pk ≠ idxfn) →
      ∀ fs : FS,
        applyEffs (l.flatMap (fun pk => pkgEffects licen (oracle pk.1) pk)) fs (fn pkg)
          = some (fixLinks pkg.1
              ((pkgheader pkg).data ++ oracle pkg.1 ++ (footer licen).data)) := by
  intro l
  induction l with
  | nil => intro pkg h; cases h
  | cons pk0 l' ih =>
    intro pkg hmem hnd hidx fs
    rw [List.flatMap_cons, applyEffs_append]
    rcases List.mem_cons.mp hmem with rfl | hmem'
    · have hrest : ∀ pk ∈ l', fn pk ≠ fn pkg := by
        intro pk hpk hcon
        have : fn pkg ∉ l'.map fn := (List.nodup_cons.mp (by simpa using hnd)).1
        exact this (hcon ▸ List.mem_map_of_mem fn hpk)
      rw [blocks_frame licen oracle (hidx pkg (List.mem_cons_self pkg l')) l' hrest]
      exact pkgEffects_self licen (oracle pkg.1) pkg fs (hidx pkg (List.mem_cons_self pkg l'))
    · exact ih pkg hmem' (by simpa using (List.nodup_cons.mp (by simpa using hnd)).2)
        (fun pk hpk => hidx pk (List.mem_cons_of_mem pk0 hpk)) _

/-- Processing a list of module blocks appends their index entries, in
order, to the index file. -/
theorem fold_blocks_idx (licen : String) (oracle : String → List Char) :
    ∀ (l : List (String × String)), (∀ pk ∈ l, fn pk ≠ idxfn) →
      ∀ (fs : FS) (v : List Char), fs idxfn = some v →
        applyEffs (l.flatMap (fun pk => pkgEffects licen (oracle pk.1) pk)) fs idxfn
          = some (v ++ l.flatMap (fun pk => (pkgitem pk).data)) := by
  intro l
  induction l with
  | nil =>
    intro _ fs v hv
    simpa using hv
  | cons pk0 l' ih =>
    intro hidx fs v hv
    rw [List.flatMap_cons, applyEffs_append]
    have h0 : applyEffs (pkgEffects licen (oracle pk0.1) pk0) fs idxfn
        = some (v ++ (pkgitem pk0).data) :=
      pkgEffects_idx licen (oracle pk0.1) pk0 fs v (hidx pk0 (List.mem_cons_self pk0 l')) hv
    rw [ih (fun pk hpk => hidx pk (List.mem_cons_of_mem pk0 hpk)) _ _ h0,
      List.flatMap_cons]
    simp

-- Registry facts, decided on the concrete 25-entry list.

theorem pkgs_fn_nodup : (pkgs.map fn).Nodup := by decide

theorem pkgs_fn_ne_idx : ∀ pk ∈ pkgs, fn pk ≠ idxfn := by decide

/-- Content of a module's page after a full run: the three chunks in order,
link-fixed. -/
theorem mainFS_page (licen : String) (oracle : String → List Char)
    (pkg : String × String) (hmem : pkg ∈ pkgs) :
    mainFS licen oracle (fn pkg)
      = some (fixLinks pkg.1
          ((pkgheader pkg).data ++ oracle pkg.1 ++ (footer licen).data)) := by
  unfold mainFS trace
  rw [applyEffs_append, applyEffs_append]
  have hpg : fn pkg ≠ idxfn := pkgs_fn_ne_idx pkg hmem
  rw [applyEffs_frame (l := idxFinalEffs licen)]
  · exact fold_blocks_page licen oracle pkgs pkg hmem pkgs_fn_nodup pkgs_fn_ne_idx _
  · intro e he
    simp only [idxFinalEffs, List.mem_cons, List.not_mem_nil, or_false] at he
    rcases he with rfl | rfl
    · exact fun hh => hpg hh.symm
    · exact fun hh => hpg hh.symm

/-- Appending to a file whose content is known. -/
theorem applyEff_append_self (fs : FS) (f : String) (v w : List Char)
    (hv : fs f = some v) : applyEff fs (Eff.append f w) f = some (v ++ w) := by
  show upd fs f ((fs f).getD [] ++ w) f = _
  rw [upd_self, hv]
  rfl

/-- Content of the index file after a full run: the three init chunks, one
`pkgitem` entry per module record in registry order, the closing chunk and
the footer. -/
theorem mainFS_idx (licen : String) (oracle : String → List Char) :
    mainFS licen oracle idxfn
      = some ((header "Gofem &ndash; Documentation").data
          ++ "<h1>Gofem &ndash; Documentation</h1>".data
          ++ "<h2 id=\\\"pkg-index\\\">Index</h2>\n<div id=\\\"manual-nav\\\">\n<dl>".data
          ++ pkgs.flatMap (fun pk => (pkgitem pk).data)
          ++ "</dl>\n</div><!-- manual-nav -->".data
          ++ (footer licen).data) := by
  unfold mainFS trace
  rw [applyEffs_append, applyEffs_append]
  have i1 : applyEff emptyFS (Eff.create idxfn (header "Gofem &ndash; Documentation").data) idxfn
      = some (header "Gofem &ndash; Documentation").data := upd_self emptyFS idxfn _
  have i2 := applyEff_append_self _ idxfn _
    "<h1>Gofem &ndash; Documentation</h1>".data i1
  have i3 := applyEff_append_self _ idxfn _
    "<h2 id=\\\"pkg-index\\\">Index</h2>\n<div id=\\\"manual-nav\\\">\n<dl>".data i2
  have hinit : applyEffs idxInitEffs emptyFS idxfn
      = some ((header "Gofem &ndash; Documentation").data
          ++ "<h1>Gofem &ndash; Documentation</h1>".data
          ++ "<h2 id=\\\"pkg-index\\\">Index</h2>\n<div id=\\\"manual-nav\\\">\n<dl>".data) := i3
  have hblocks := fold_blocks_idx licen oracle pkgs pkgs_fn_ne_idx
    (applyEffs idxInitEffs emptyFS) _ hinit
  have f1 := applyEff_append_self _ idxfn _
    "</dl>\n</div><!-- manual-nav -->".data hblocks
  have f2 := applyEff_append_self _ idxfn _ (footer licen).data f1
  exact f2

-- ### The write trace (for the write-discipline claim)

/-- Extract from an effect the chunk it writes to file `f`:
`(true, v)` for a truncating write, `(false, v)` for an append; sed
substitutions are in-place fixes, not chunk writes. -/
def chunkWrite (f : String) : Eff → Option (Bool × List Char)
  | Eff.create g v => if g = f then some (true, v) else none
  | Eff.append g v => if g = f then some (false, v) else none
  | Eff.sed _ _ _ => none

theorem chunkWrite_ne {f : String} {e : Eff} (h : effPath e ≠ f) :
    chunkWrite f e = none := by
  cases e with
  | create g v =>
    simp only [effPath] at h
    simp [chunkWrite, h]
  | append g v =>
    simp only [effPath] at h
    simp [chunkWrite, h]
  | sed g p r => rfl

theorem filterMap_chunk_nil {f : String} :
    ∀ l : List Eff, (∀ e ∈ l, effPath e ≠ f) → l.filterMap (chunkWrite f) = [] := by
  intro l
  induction l with
  | nil => intro _; rfl
  | cons e l' ih =>
    intro h
    rw [List.filterMap_cons, chunkWrite_ne (h e (List.mem_cons_self e l')),
      ih (fun e' he' => h e' (List.mem_cons_of_mem e he'))]

theorem pkgEffects_paths {licen : String} {out : List Char} {pkg : String × String} :
    ∀ e ∈ pkgEffects licen out pkg, effPath e = fn pkg ∨ effPath e = idxfn := by
  intro e he
  rcases List.mem_append.mp he with h | h
  · simp only [List.mem_cons, List.not_mem_nil, or_false] at h
    rcases h with rfl | rfl | rfl | rfl
    · exact Or.inl rfl
    · exact Or.inl rfl
    · exact Or.inl rfl
    · exact Or.inr rfl
  · obtain ⟨pr, _, he'⟩ := List.mem_map.mp h
    subst he'
    exact Or.inl rfl

theorem filterMap_chunk_sed (f g : String) :
    ∀ rs : List (List Char × List Char),
      (rs.map (fun pr => Eff.sed g pr.1 pr.2)).filterMap (chunkWrite f) = [] := by
  intro rs
  induction rs with
  | nil => rfl
  | cons pr rs' ih =>
    rw [List.map_cons, List.filterMap_cons]
    simpa [chunkWrite] using ih

theorem pkgEffects_writes_self (licen : String) (out : List Char)
    (pkg : String × String) (hne : fn pkg ≠ idxfn) :
    (pkgEffects licen out pkg).filterMap (chunkWrite (fn pkg))
      = [(true, (pkgheader pkg).data), (false, out), (false, (footer licen).data)] := by
  unfold pkgEffects
  rw [List.filterMap_append, filterMap_chunk_sed]
  have hnei : ¬ (idxfn = fn pkg) := fun hh => hne hh.symm
  simp [List.filterMap_cons, chunkWrite, hnei]

theorem pkgEffects_writes_other (licen : String) (out : List Char)
    (pkg : String × String) {g : String} (h1 : g ≠ fn pkg) (h2 : g ≠ idxfn) :
    (pkgEffects licen out pkg).filterMap (chunkWrite g) = [] := by
  apply filterMap_chunk_nil
  intro e he
  rcases pkgEffects_paths e he with h | h
  · exact fun hh => h1 (hh.symm.trans h)
  · exact fun hh => h2 (hh.symm.trans h)

/-- The chunk writes a run performs on the page file of a registry module
are exactly: one truncating write of the page header, one append of the
extractor output, one append of the footer — in that order. -/
theorem blocks_writes (licen : String) (oracle : String → List Char) :
    ∀ (l : List (String × String)) (pkg : String × String), pkg ∈ l →
      (l.map fn).Nodup → (∀ pk ∈ l, fn pk ≠ idxfn) →
      (l.flatMap (fun pk => pkgEffects licen (oracle pk.1) pk)).filterMap
          (chunkWrite (fn pkg))
        = [(true, (pkgheader pkg).data), (false, oracle pkg.1),
           (false, (footer licen).data)] := by
  intro l
  induction l with
  | nil => intro pkg h; cases h
  | cons pk0 l' ih =>
    intro pkg hmem hnd hidx
    rw [List.flatMap_cons, List.filterMap_append]
    rcases List.mem_cons.mp hmem with rfl | hmem'
    · have hrest : (l'.flatMap (fun pk => pkgEffects licen (oracle pk.1) pk)).filterMap
          (chunkWrite (fn pkg)) = [] := by
        apply filterMap_chunk_nil
        intro e he
        obtain ⟨pk, hpk, hepk⟩ := List.mem_flatMap.mp he
        have hfn : fn pk ≠ fn pkg := by
          intro hcon
          have : fn pkg ∉ l'.map fn := (List.nodup_cons.mp (by simpa using hnd)).1
          exact this (hcon ▸ List.mem_map_of_mem fn hpk)
        rcases pkgEffects_paths e hepk with h | h
        · exact fun hh => hfn (h.symm.trans hh)
        · exact fun hh => hidx pkg (List.mem_cons_self pkg l') (hh.symm.trans h)
      rw [hrest,
        pkgEffects_writes_self licen (oracle pkg.1) pkg (hidx pkg (List.mem_cons_self pkg l'))]
      simp
    · have hhead : (pkgEffects licen (oracle pk0.1) pk0).filterMap
          (chunkWrite (fn pkg)) = [] := by
        apply pkgEffects_writes_other
        · intro hcon
          have : fn pk0 ∉ l'.map fn := (List.nodup_cons.mp (by simpa using hnd)).1
          exact this (hcon.symm ▸ List.mem_map_of_mem fn hmem')
        · exact hidx pkg (List.mem_cons_of_mem pk0 hmem')
      rw [hhead,
        ih pkg hmem' (by simpa using (List.nodup_cons.mp (by simpa using hnd)).2)
          (fun pk hpk => hidx pk (List.mem_cons_of_mem pk0 hpk))]
      simp

-- ### Claim theorems: generator structure

/-- C1: for every module record of the registry, every license text and every
extractor behaviour, the generated per-module file is byte-equal to the
link-fixed concatenation of the rendered page header, the extractor's
output, and the rendered footer, in that order — never reordered. -/
theorem C1_page_is_fixed_concat (licen : String) (oracle : String → List Char)
    (pkg : String × String) (hmem : pkg ∈ pkgs) :
    mainFS licen oracle (fn pkg)
      = some (fixLinks pkg.1
          ((pkgheader pkg).data ++ oracle pkg.1 ++ (footer licen).data)) :=
  mainFS_page licen oracle pkg hmem

/-- Witness for C1 at the first registry module with a stub extractor. -/
theorem C1_page_is_fixed_concat_witness :
    ("ana", "analytical solutions") ∈ pkgs ∧
    mainFS "LIC" (fun _ => "<p>stub</p>".data) (fn ("ana", "analytical solutions"))
      = some (fixLinks "ana"
          ((pkgheader ("ana", "analytical solutions")).data
            ++ "<p>stub</p>".data ++ (footer "LIC").data)) :=
  ⟨by decide,
   C1_page_is_fixed_concat "LIC" (fun _ => "<p>stub</p>".data)
     ("ana", "analytical solutions") (by decide)⟩

/-- The basename the loop computes for a module page (`'xx'+fnk+'.html'`). -/
def pageBase (pkg : String × String) : String :=
  "xx" ++ pyReplace pkg.1 "/" "-" ++ ".html"

/-- C3: the index file consists of its header chunks, then exactly one entry
per module record in registry order, then the closing chunks; each entry's
link target is the flattened basename (slashes replaced by dashes) of the
page file the loop actually writes for that module, which lives in the same
output directory as the index. -/
theorem C3_index_entries (licen : String) (oracle : String → List Char) :
    (mainFS licen oracle idxfn
      = some ((header "Gofem &ndash; Documentation").data
          ++ "<h1>Gofem &ndash; Documentation</h1>".data
          ++ "<h2 id=\\\"pkg-index\\\">Index</h2>\n<div id=\\\"manual-nav\\\">\n<dl>".data
          ++ pkgs.flatMap (fun pk => (pkgitem pk).data)
          ++ "</dl>\n</div><!-- manual-nav -->".data
          ++ (footer licen).data))
    ∧ (∀ pkg ∈ pkgs,
        pkgitem pkg
          = "<dd><a href=\\\"" ++ pageBase pkg ++ "\\\"><b>" ++ pkg.1 ++ "</b>: "
            ++ pkg.2 ++ "</a></dd>"
        ∧ fn pkg = odir ++ pageBase pkg)
    ∧ pyReplace "mdl/sld" "/" "-" = "mdl-sld" :=
  ⟨mainFS_idx licen oracle, by decide, by decide⟩

/-- Witness for C3 (its second conjunct carries the bounded quantifier):
instantiated at a trivial license and extractor. -/
theorem C3_index_entries_witness :
    mainFS "LIC" (fun _ => []) idxfn
      = some ((header "Gofem &ndash; Documentation").data
          ++ "<h1>Gofem &ndash; Documentation</h1>".data
          ++ "<h2 id=\\\"pkg-index\\\">Index</h2>\n<div id=\\\"manual-nav\\\">\n<dl>".data
          ++ pkgs.flatMap (fun pk => (pkgitem pk).data)
          ++ "</dl>\n</div><!-- manual-nav -->".data
          ++ (footer "LIC").data)
    ∧ pkgitem ("mdl/solid", "models for solids")
        = "<dd><a href=\\\"" ++ pageBase ("mdl/solid", "models for solids")
          ++ "\\\"><b>" ++ "mdl/solid" ++ "</b>: " ++ "models for solids" ++ "</a></dd>" :=
  ⟨(C3_index_entries "LIC" (fun _ => [])).1,
   ((C3_index_entries "LIC" (fun _ => [])).2.1 ("mdl/solid", "models for solids")
     (by decide)).1⟩

/-- C5: rendering is pure (the template functions are Lean functions of
their arguments alone) and the run's chunk writes to a module's page file
are exactly one truncating `echo` of the rendered page header, one append of
the raw extractor output and one append of the rendered footer, in call
order; consequently the page artifact depends only on the license text and
the extractor's output for that one module (runs whose extractors agree
there produce identical page files). -/
theorem C5_write_discipline (licen : String) (oracle : String → List Char)
    (pkg : String × String) (hmem : pkg ∈ pkgs) :
    ((trace licen oracle).filterMap (chunkWrite (fn pkg))
      = [(true, (pkgheader pkg).data), (false, oracle pkg.1),
         (false, (footer licen).data)])
    ∧ ∀ oracle₂ : String → List Char, oracle₂ pkg.1 = oracle pkg.1 →
        mainFS licen oracle₂ (fn pkg) = mainFS licen oracle (fn pkg) := by
  constructor
  · have hpg : fn pkg ≠ idxfn := pkgs_fn_ne_idx pkg hmem
    unfold trace
    rw [List.filterMap_append, List.filterMap_append]
    have hinit : idxInitEffs.filterMap (chunkWrite (fn pkg)) = [] := by
      apply filterMap_chunk_nil
      intro e he
      simp only [idxInitEffs, List.mem_cons, List.not_mem_nil, or_false] at he
      rcases he with rfl | rfl | rfl <;> exact fun hh => hpg hh.symm
    have hfin : (idxFinalEffs licen).filterMap (chunkWrite (fn pkg)) = [] := by
      apply filterMap_chunk_nil
      intro e he
      simp only [idxFinalEffs, List.mem_cons, List.not_mem_nil, or_false] at he
      rcases he with rfl | rfl <;> exact fun hh => hpg hh.symm
    rw [hinit, hfin,
      blocks_writes licen oracle pkgs pkg hmem pkgs_fn_nodup pkgs_fn_ne_idx]
    simp
  · intro o2 ho
    rw [mainFS_page licen o2 pkg hmem, mainFS_page licen oracle pkg hmem, ho]

/-- Witness for C5 at the first registry module. -/
theorem C5_write_discipline_witness :
    ((trace "LIC" (fun _ => "<p>stub</p>".data)).filterMap
        (chunkWrite (fn ("ana", "analytical solutions")))
      = [(true, (pkgheader ("ana", "analytical solutions")).data),
         (false, "<p>stub</p>".data), (false, (footer "LIC").data)])
    ∧ ∀ oracle₂ : String → List Char, oracle₂ "ana" = "<p>stub</p>".data →
        mainFS "LIC" oracle₂ (fn ("ana", "analytical solutions"))
          = mainFS "LIC" (fun _ => "<p>stub</p>".data)
              (fn ("ana", "analytical solutions")) :=
  C5_write_discipline "LIC" (fun _ => "<p>stub</p>".data)
    ("ana", "analytical solutions") (by decide)

-- ### Claim theorems: the process runner

/-- C9: with `debug=True`, `Cmd` fails with a `NameError` (the debug branch
prints the undefined name `cmd`) independently of the shell — no subprocess
is consulted; with `debug=False` (the script always calls it this way) the
branch is skipped and `Cmd` always reaches the subprocess invocation,
returning its captured streams. -/
theorem C9_debug_name_error :
    (∀ (run : String → String × String) (c : String) (v : Bool),
        Cmd run c v true = Except.error "NameError: name cmd is not defined")
    ∧ (∀ (run₁ run₂ : String → String × String) (c : String) (v : Bool),
        Cmd run₁ c v true = Cmd run₂ c v true)
    ∧ (∀ (run : String → String × String) (c : String) (v : Bool),
        Cmd run c v false = Except.ok ((run c).1, pyStrip (run c).2)) :=
  ⟨fun _ _ _ => rfl, fun _ _ _ _ => rfl, fun _ _ _ => rfl⟩

-- ### Claim theorems: filenames

/-- Characters of the output of a slash-to-dash replacement never include a
slash. -/
theorem no_slash_replaceAll : ∀ l : List Char, '/' ∉ replaceAll ['/'] ['-'] l := by
  intro l
  induction l with
  | nil => simp [replaceAll_nil]
  | cons c cs ih =>
    by_cases hc : c = '/'
    · subst hc
      have hpre : ['/'] <+: '/' :: cs := pref_cons_cons.mpr ⟨rfl, List.nil_prefix⟩
      rw [replaceAll_pos ['-'] (by simp) hpre]
      intro hmem
      rcases List.mem_append.mp hmem with h | h
      · simp at h
      · exact ih (by simpa using h)
    · have hnp : ¬ ['/'] <+: c :: cs := by
        intro hpre
        exact hc (pref_cons_cons.mp hpre).1.symm
      rw [replaceAll_neg ['-'] hnp]
      intro hmem
      rcases List.mem_cons.mp hmem with h | h
      · exact hc h.symm
      · exact ih h

/-- C10: for every identifier, the derived basename `'xx'+id.replace('/','-')
+'.html'` contains no slash, so each page file sits directly in the fixed
output directory `doc/`; and the 25 registry identifiers map to 25 pairwise
distinct page filenames. -/
theorem C10_flat_distinct_filenames :
    (∀ pkg : String × String, ('/' : Char) ∉ (pageBase pkg).data)
    ∧ (∀ pkg : String × String, fn pkg = odir ++ pageBase pkg)
    ∧ (pkgs.map fn).Nodup
    ∧ pkgs.length = 25 := by
  refine ⟨?_, ?_, pkgs_fn_nodup, by decide⟩
  · intro pkg
    intro hmem
    simp only [pageBase, String.data_append, List.mem_append] at hmem
    rcases hmem with (h | h) | h
    · simp at h
    · exact no_slash_replaceAll pkg.1.data h
    · simp at h
  · intro pkg
    show odir ++ "xx" ++ pyReplace pkg.1 "/" "-" ++ ".html" = _
    simp [pageBase, String.append_assoc]

-- ### Claim theorems: `str.strip` and the captured streams

theorem dropWhile_head_false {p : Char → Bool} :
    ∀ (l : List Char) (c : Char), (l.dropWhile p).head? = some c → p c = false := by
  intro l
  induction l with
  | nil => intro c h; cases h
  | cons a l' ih =>
    intro c h
    by_cases ha : p a = true
    · rw [List.dropWhile_cons_of_pos ha] at h
      exact ih c h
    · rw [List.dropWhile_cons_of_neg ha] at h
      simp only [List.head?_cons, Option.some.injEq] at h
      subst h
      exact Bool.eq_false_iff.mpr ha

theorem stripData_sub (l : List Char) : stripData l <:+: l := by
  unfold stripData
  have h1 : l.dropWhile isPySpace <:+ l := List.dropWhile_suffix isPySpace
  set m := l.dropWhile isPySpace with hm
  have h2 : ((m.reverse.dropWhile isPySpace).reverse) <+: m := by
    rw [← List.reverse_suffix, List.reverse_reverse]
    exact List.dropWhile_suffix isPySpace
  obtain ⟨t, ht⟩ := h2
  obtain ⟨u, hu⟩ := h1
  exact ⟨u, t, by rw [List.append_assoc, ht, hu]⟩

theorem stripData_head {l : List Char} {c : Char}
    (h : (stripData l).head? = some c) : isPySpace c = false := by
  unfold stripData at h
  set m := l.dropWhile isPySpace with hm
  have hpre : ((m.reverse.dropWhile isPySpace).reverse) <+: m := by
    rw [← List.reverse_suffix, List.reverse_reverse]
    exact List.dropWhile_suffix isPySpace
  obtain ⟨t, ht⟩ := hpre
  have hmh : m.head? = some c := by
    rw [← ht, List.head?_append, h]
    rfl
  exact dropWhile_head_false l c hmh

theorem stripData_last {l : List Char} {c : Char}
    (h : (stripData l).reverse.head? = some c) : isPySpace c = false := by
  unfold stripData at h
  rw [List.reverse_reverse] at h
  exact dropWhile_head_false _ c h

/-- C4 counterexample: the Process Runner does not return stderr exactly as
captured — `Cmd` applies Python `strip()` to it (xgendoc.py line 16), so a
shell producing stderr `" b\n"` returns `"b"`, not the captured stream. -/
theorem C4_exact_capture_cex :
    Cmd (fun _ => ("a", " b\n")) "x" false false
      = Except.ok ("a", pyStrip " b\n")
    ∧ pyStrip " b\n" ≠ " b\n" :=
  ⟨rfl, by decide⟩

/-- C4 amended: for every command string, the Process Runner invokes it
through the shell oracle, captures both streams fully, and returns stdout
exactly as captured and stderr as captured but with leading and trailing
whitespace stripped (an infix of the captured stream whose first and last
characters are not whitespace). -/
theorem C4_streams_amended (run : String → String × String) (c : String) (v : Bool) :
    Cmd run c v false = Except.ok ((run c).1, pyStrip (run c).2)
    ∧ (pyStrip (run c).2).data <:+: (run c).2.data
    ∧ (∀ ch, (pyStrip (run c).2).data.head? = some ch → isPySpace ch = false)
    ∧ (∀ ch, (pyStrip (run c).2).data.reverse.head? = some ch → isPySpace ch = false) :=
  ⟨rfl, stripData_sub (run c).2.data,
   fun _ h => stripData_head h, fun _ h => stripData_last h⟩

/-- Witness for C4's amended statement at a concrete shell oracle. -/
theorem C4_streams_amended_witness :
    Cmd (fun _ => ("a", " b\n")) "x" false false
      = Except.ok (("a", " b\n").1, pyStrip ("a", " b\n").2)
    ∧ (pyStrip (" b\n" : String)).data <:+: (" b\n" : String).data
    ∧ (∀ ch, (pyStrip (" b\n" : String)).data.head? = some ch → isPySpace ch = false)
    ∧ (∀ ch, (pyStrip (" b\n" : String)).data.reverse.head? = some ch → isPySpace ch = false) :=
  C4_streams_amended (fun _ => ("a", " b\n")) "x" false

-- ### Decomposition and identity lemmas for the Link Fixer

/-- The subdirectory pass (rule 3 for each configured subdirectory, in
order). -/
def subPass (pid : String) (ds : List String) (t : List Char) : List Char :=
  ds.foldl (fun u d => replaceAll (pat3 d) (rep3 pid d) u) t

theorem applyRules_append (a b : List (List Char × List Char)) (s : List Char) :
    applyRules (a ++ b) s = applyRules b (applyRules a s) := by
  unfold applyRules
  rw [List.foldl_append]

theorem fixLinks_decomp (pid : String) (s : List Char) :
    fixLinks pid s
      = replaceAll pat4 rep4
          (subPass pid (subdirsOf pid)
            (replaceAll pat2 rep2 (replaceAll pat1 (rep1 pid) s))) := by
  unfold fixLinks rules
  rw [applyRules_append, applyRules_append]
  unfold applyRules subPass
  rw [List.foldl_map]
  rfl

theorem applyRules_id {s : List Char} :
    ∀ rs : List (List Char × List Char), (∀ pr ∈ rs, ¬ pr.1 <:+: s) →
      applyRules rs s = s := by
  intro rs
  induction rs with
  | nil => intro _; rfl
  | cons pr rs' ih =>
    intro h
    show applyRules rs' (replaceAll pr.1 pr.2 s) = s
    rw [replaceAll_id pr.2 (h pr (List.mem_cons_self pr rs')),
      ih (fun pr' hpr' => h pr' (List.mem_cons_of_mem pr hpr'))]

theorem not_occ_of_B {p s : List Char} (hp : p ≠ []) (h : occursB p s = false) :
    ¬ p <:+: s :=
  fun hc => by rw [(occursB_iff hp s).mpr hc] at h; cases h

-- Bundled boolean side conditions for the reoccurrence lemmas.

def selfOkB (p r : List Char) : Bool :=
  !(occursB p r) && noSufPreB p r && !(occursB r p) && noPreSufB p r

def crossOkB (p q r : List Char) : Bool :=
  !(occursB p r) && noSufPreB p r && !(occursB r p) && tailCondB p q r

def permOkB (p q : List Char) : Bool :=
  !(occursB p q) && !(occursB q p) && noSufPreB q p && noSufPreB p q

theorem selfOk_no_reocc {p r : List Char} (hp : p ≠ []) (hr : r ≠ [])
    (h : selfOkB p r = true) (s : List Char) : ¬ p <:+: replaceAll p r s := by
  have h' := h
  unfold selfOkB at h'
  simp only [Bool.and_eq_true, Bool.not_eq_eq_eq_not, Bool.not_true] at h'
  obtain ⟨⟨⟨h1, h2⟩, h3⟩, h4⟩ := h'
  exact self_no_reocc' hp (not_occ_of_B hp h1) (noSufPre_of_B h2)
    (not_occ_of_B hr h3) (noPreSuf_of_B h4) s

theorem crossOk_no_occ {p q r : List Char} (hp : p ≠ []) (hq : q ≠ []) (hr : r ≠ [])
    (h : crossOkB p q r = true) {s : List Char} (hps : ¬ p <:+: s) :
    ¬ p <:+: replaceAll q r s := by
  have h' := h
  unfold crossOkB at h'
  simp only [Bool.and_eq_true, Bool.not_eq_eq_eq_not, Bool.not_true] at h'
  obtain ⟨⟨⟨h1, h2⟩, h3⟩, h4⟩ := h'
  exact other_no_occ' hp hq (not_occ_of_B hp h1) (noSufPre_of_B h2)
    (not_occ_of_B hr h3) (tailCond_of_B h4) hps

theorem permOk_pres {p q : List Char} (r : List Char) (hp : p ≠ []) (hq : q ≠ [])
    (h : permOkB p q = true) {s : List Char} (hocc : p <:+: s) :
    p <:+: replaceAll q r s := by
  have h' := h
  unfold permOkB at h'
  simp only [Bool.and_eq_true, Bool.not_eq_eq_eq_not, Bool.not_true] at h'
  obtain ⟨⟨⟨h1, h2⟩, h3⟩, h4⟩ := h'
  exact pres_occ' hp hq (not_occ_of_B hp h1) (not_occ_of_B hq h2)
    (noSufPre_of_B h3) (noSufPre_of_B h4) hocc

-- Nonemptiness of the patterns and replacements.

theorem pat3_ne (d : String) : pat3 d ≠ [] := by
  unfold pat3
  rw [String.data_append, String.data_append]
  simp

theorem rep3_ne (pid d : String) : rep3 pid d ≠ [] := by
  unfold rep3
  rw [String.data_append, String.data_append, String.data_append, String.data_append]
  simp

theorem rep1_ne (pid : String) : rep1 pid ≠ [] := by
  unfold rep1
  rw [String.data_append]
  simp

-- ### Claim theorems: the Link Fixer

/-- C6 counterexample: for the module `"ana"` (whose configured subdirectory
set is empty), a page consisting of the single anchor
`<a href="/src/target/">` — an anchor of the form `<a href="name/">` — is
changed by the Link Fixer: rule 1 rewrites inside its target. -/
theorem C6_anchor_cex :
    subdirsOf "ana" = []
    ∧ fixLinks "ana" "<a href=\"/src/target/\">".data
        ≠ "<a href=\"/src/target/\">".data :=
  ⟨by decide, by decide⟩

/-- C6 amended: for every module whose configured subdirectory set is empty,
the Link Fixer applies only rules 1, 2 and 4 (the subdirectory pass is
skipped), and any page containing no occurrence of the rule-1, rule-2 or
rule-4 patterns — in particular each of its anchors `<a href="name/">` — is
left entirely unchanged; anchors whose target embeds a rule-1 or rule-2
pattern can still be rewritten by those rules. -/
theorem C6_empty_subdirs (pid : String) (hsub : subdirsOf pid = []) (s : List Char) :
    fixLinks pid s
      = replaceAll pat4 rep4 (replaceAll pat2 rep2 (replaceAll pat1 (rep1 pid) s))
    ∧ (¬ pat1 <:+: s → ¬ pat2 <:+: s → ¬ pat4 <:+: s → fixLinks pid s = s) := by
  have hdec : fixLinks pid s
      = replaceAll pat4 rep4 (replaceAll pat2 rep2 (replaceAll pat1 (rep1 pid) s)) := by
    rw [fixLinks_decomp, hsub]
    rfl
  refine ⟨hdec, fun h1 h2 h4 => ?_⟩
  rw [hdec, replaceAll_id _ h1, replaceAll_id _ h2, replaceAll_id _ h4]

/-- Witness for the amended C6 at module `"ana"` and a pattern-free page. -/
theorem C6_empty_subdirs_witness :
    fixLinks "ana" "hello".data
      = replaceAll pat4 rep4
          (replaceAll pat2 rep2 (replaceAll pat1 (rep1 "ana") "hello".data))
    ∧ fixLinks "ana" "hello".data = "hello".data :=
  ⟨(C6_empty_subdirs "ana" (by decide) "hello".data).1,
   (C6_empty_subdirs "ana" (by decide) "hello".data).2
     (by decide) (by decide) (by decide)⟩

/-- C8 counterexample: applying rule 2 before rule 1 (a permutation of the
implemented order) differs from the implemented order 1,2,(3),4 on the page
`/src/github.com/cpmech/gofem/src/target` for module `"ana"`: rule 2's
replacement ends in `/` and recombines with the following `src/target`. -/
theorem C8_order_cex :
    List.Perm [(pat2, rep2), (pat1, rep1 "ana"), (pat4, rep4)] (rules "ana")
    ∧ applyRules [(pat2, rep2), (pat1, rep1 "ana"), (pat4, rep4)]
        "/src/github.com/cpmech/gofem/src/target".data
      ≠ fixLinks "ana" "/src/github.com/cpmech/gofem/src/target".data := by
  constructor
  · have hr : rules "ana" = [(pat1, rep1 "ana"), (pat2, rep2), (pat4, rep4)] := by
      decide
    rw [hr]
    exact List.Perm.swap _ _ _
  · decide

/-- C8 amended: order independence fails in general (see the counterexample);
it does hold for pages in which none of the module's substitution patterns
occurs: every rule is then the identity, so every permutation of the rule
list yields the same (unchanged) page as the implemented order 1, 2, 3, 4. -/
theorem C8_order_amended (pid : String) (s : List Char)
    (h : ∀ pr ∈ rules pid, ¬ pr.1 <:+: s) :
    ∀ rs : List (List Char × List Char), rs.Perm (rules pid) →
      applyRules rs s = fixLinks pid s ∧ applyRules rs s = s := by
  intro rs hperm
  have hid2 : fixLinks pid s = s := applyRules_id (rules pid) h
  have hid1 : applyRules rs s = s :=
    applyRules_id rs (fun pr hpr => h pr (hperm.mem_iff.mp hpr))
  exact ⟨hid1.trans hid2.symm, hid1⟩

/-- Witness for the amended C8: a transposed rule order on a pattern-free
page for module `"ana"`. -/
theorem C8_order_amended_witness :
    applyRules [(pat2, rep2), (pat1, rep1 "ana"), (pat4, rep4)] "hello".data
      = fixLinks "ana" "hello".data
    ∧ applyRules [(pat2, rep2), (pat1, rep1 "ana"), (pat4, rep4)] "hello".data
      = "hello".data :=
  C8_order_amended "ana" "hello".data (by decide)
    [(pat2, rep2), (pat1, rep1 "ana"), (pat4, rep4)]
    (by rw [(by decide : rules "ana" = [(pat1, rep1 "ana"), (pat2, rep2), (pat4, rep4)])]
        exact List.Perm.swap _ _ _)

-- ### Absence propagation through the subdirectory pass

theorem subPass_pres_absence (pid : String) {p : List Char} (hp : p ≠ []) :
    ∀ ds : List String, (∀ d ∈ ds, crossOkB p (pat3 d) (rep3 pid d) = true) →
      ∀ t : List Char, ¬ p <:+: t → ¬ p <:+: subPass pid ds t := by
  intro ds
  induction ds with
  | nil => intro _ t ht; exact ht
  | cons d ds' ih =>
    intro hc t ht
    show ¬ p <:+: subPass pid ds' (replaceAll (pat3 d) (rep3 pid d) t)
    apply ih (fun d' hd' => hc d' (List.mem_cons_of_mem d hd'))
    exact crossOk_no_occ hp (pat3_ne d) (rep3_ne pid d)
      (hc d (List.mem_cons_self d ds')) ht

theorem subPass_self_absence (pid : String) :
    ∀ ds : List String,
      (∀ d ∈ ds, selfOkB (pat3 d) (rep3 pid d) = true) →
      (∀ d ∈ ds, ∀ d2 ∈ ds, crossOkB (pat3 d) (pat3 d2) (rep3 pid d2) = true) →
      ∀ d ∈ ds, ∀ t : List Char, ¬ pat3 d <:+: subPass pid ds t := by
  intro ds
  induction ds with
  | nil => intro _ _ d hd; cases hd
  | cons d0 ds' ih =>
    intro hself hcross d hd t
    show ¬ pat3 d <:+: subPass pid ds' (replaceAll (pat3 d0) (rep3 pid d0) t)
    rcases List.mem_cons.mp hd with rfl | hd'
    · apply subPass_pres_absence pid (pat3_ne d) ds'
        (fun d2 hd2 => hcross d (List.mem_cons_self d ds') d2 (List.mem_cons_of_mem d hd2))
      exact selfOk_no_reocc (pat3_ne d) (rep3_ne pid d)
        (hself d (List.mem_cons_self d ds')) t
    · exact ih (fun d1 hd1 => hself d1 (List.mem_cons_of_mem d0 hd1))
        (fun d1 hd1 d2 hd2 => hcross d1 (List.mem_cons_of_mem d0 hd1)
          d2 (List.mem_cons_of_mem d0 hd2)) d hd' _

-- ### Side conditions of the link-fixing rules, decided on the registry

theorem c7ok_all : pkgs.all (fun pk =>
    selfOkB (pat3 "data") (rep3 pk.1 "data")
    && crossOkB (pat3 "data") pat4 rep4
    && permOkB (pat3 "data") pat1
    && permOkB (pat3 "data") pat2
    && permOkB (rep3 pk.1 "data") pat4) = true := by
  decide

/-- C7: for every registry module whose subdirectory set is `["data"]` and
every raw page content, after fixing no anchor `<a href="data/">` remains,
and if the raw content contained one, the fixed page contains the
replacement anchor whose target is the absolute repository tree URL for
`<moduleId>/data`. -/
theorem C7_data_anchor (pkg : String × String) (hmem : pkg ∈ pkgs)
    (hsub : subdirsOf pkg.1 = ["data"]) (s : List Char) :
    ¬ pat3 "data" <:+: fixLinks pkg.1 s
    ∧ (pat3 "data" <:+: s → rep3 pkg.1 "data" <:+: fixLinks pkg.1 s) := by
  have hok := List.all_eq_true.mp c7ok_all pkg hmem
  simp only [Bool.and_eq_true] at hok
  obtain ⟨⟨⟨⟨hself, hcross4⟩, hperm1⟩, hperm2⟩, hpermR⟩ := hok
  have hp3 : pat3 "data" ≠ [] := pat3_ne "data"
  have hp1ne : pat1 ≠ [] := by decide
  have hp2ne : pat2 ≠ [] := by decide
  have hp4ne : pat4 ≠ [] := by decide
  have hr4ne : rep4 ≠ [] := by decide
  rw [fixLinks_decomp, hsub]
  have hsp : ∀ t : List Char,
      subPass pkg.1 ["data"] t = replaceAll (pat3 "data") (rep3 pkg.1 "data") t :=
    fun t => rfl
  rw [hsp]
  constructor
  · apply crossOk_no_occ hp3 hp4ne hr4ne hcross4
    exact selfOk_no_reocc hp3 (rep3_ne pkg.1 "data") hself _
  · intro hocc
    have h1 : pat3 "data" <:+: replaceAll pat1 (rep1 pkg.1) s :=
      permOk_pres (rep1 pkg.1) hp3 hp1ne hperm1 hocc
    have h2 : pat3 "data" <:+: replaceAll pat2 rep2 (replaceAll pat1 (rep1 pkg.1) s) :=
      permOk_pres rep2 hp3 hp2ne hperm2 h1
    have h3 : rep3 pkg.1 "data"
        <:+: replaceAll (pat3 "data") (rep3 pkg.1 "data")
              (replaceAll pat2 rep2 (replaceAll pat1 (rep1 pkg.1) s)) :=
      repl_occ' hp3 h2
    exact permOk_pres rep4 (rep3_ne pkg.1 "data") hp4ne hpermR h3

/-- Witness for C7 at module `"mdl/solid"` on a raw fragment consisting of
the anchor itself. -/
theorem C7_data_anchor_witness :
    (¬ pat3 "data" <:+: fixLinks "mdl/solid" "<a href=\"data/\">".data)
    ∧ (pat3 "data" <:+: "<a href=\"data/\">".data →
        rep3 "mdl/solid" "data" <:+: fixLinks "mdl/solid" "<a href=\"data/\">".data) :=
  C7_data_anchor ("mdl/solid", "models for solids") (by decide) (by decide)
    "<a href=\"data/\">".data

-- ### Side conditions for the idempotence analysis

theorem c2ok_r1self : pkgs.all (fun pk => selfOkB pat1 (rep1 pk.1)) = true := by
  decide

theorem c2ok_r1r2 : crossOkB pat1 pat2 rep2 = true := by decide

theorem c2ok_r1r4 : crossOkB pat1 pat4 rep4 = true := by decide

theorem c2ok_r4self : selfOkB pat4 rep4 = true := by decide

theorem c2ok_r1sub : pkgs.all (fun pk => (subdirsOf pk.1).all (fun d =>
    crossOkB pat1 (pat3 d) (rep3 pk.1 d))) = true := by decide

theorem c2ok_subself : pkgs.all (fun pk => (subdirsOf pk.1).all (fun d =>
    selfOkB (pat3 d) (rep3 pk.1 d))) = true := by decide

theorem c2ok_subr4 : pkgs.all (fun pk => (subdirsOf pk.1).all (fun d =>
    crossOkB (pat3 d) pat4 rep4)) = true := by decide

theorem c2ok_subsub : pkgs.all (fun pk => (subdirsOf pk.1).all (fun d =>
    (subdirsOf pk.1).all (fun d2 =>
      crossOkB (pat3 d) (pat3 d2) (rep3 pk.1 d2)))) = true := by decide

/-- C2 counterexample: applying the Link Fixer twice is not idempotent.  For
module `"ana"` and the page
`/src/github.com/cpmech/gofem/src/github.com/cpmech/gofem/`, rule 2's
replacement ends in `/` and recombines with the following text into a fresh
occurrence of rule 2's pattern, which the second pass rewrites again. -/
theorem C2_idem_cex :
    ("ana", "analytical solutions") ∈ pkgs
    ∧ fixLinks "ana" (fixLinks "ana"
        "/src/github.com/cpmech/gofem/src/github.com/cpmech/gofem/".data)
      ≠ fixLinks "ana" "/src/github.com/cpmech/gofem/src/github.com/cpmech/gofem/".data :=
  ⟨by decide, by decide⟩

/-- C2 amended: for every registry module, the Link Fixer is idempotent on
every file whose first fixing pass leaves no occurrence of rule 2's pattern
(`/src/github.com/cpmech/gofem/`): rules 1, 3 and 4 can never re-create a
matching pattern, and rule 2 is the only rule whose replacement can splice
with following text into a fresh match. -/
theorem C2_fixer_idem (pkg : String × String) (hmem : pkg ∈ pkgs) (s : List Char)
    (h2occ : ¬ pat2 <:+: fixLinks pkg.1 s) :
    fixLinks pkg.1 (fixLinks pkg.1 s) = fixLinks pkg.1 s := by
  have hp1ne : pat1 ≠ [] := by decide
  have hp2ne : pat2 ≠ [] := by decide
  have hp4ne : pat4 ≠ [] := by decide
  have hr2ne : rep2 ≠ [] := by decide
  have hr4ne : rep4 ≠ [] := by decide
  have hA : selfOkB pat1 (rep1 pkg.1) = true :=
    List.all_eq_true.mp c2ok_r1self pkg hmem
  have hE : ∀ d ∈ subdirsOf pkg.1, crossOkB pat1 (pat3 d) (rep3 pkg.1 d) = true :=
    List.all_eq_true.mp (List.all_eq_true.mp c2ok_r1sub pkg hmem)
  have hF : ∀ d ∈ subdirsOf pkg.1, selfOkB (pat3 d) (rep3 pkg.1 d) = true :=
    List.all_eq_true.mp (List.all_eq_true.mp c2ok_subself pkg hmem)
  have hG : ∀ d ∈ subdirsOf pkg.1, crossOkB (pat3 d) pat4 rep4 = true :=
    List.all_eq_true.mp (List.all_eq_true.mp c2ok_subr4 pkg hmem)
  have hH : ∀ d ∈ subdirsOf pkg.1, ∀ d2 ∈ subdirsOf pkg.1,
      crossOkB (pat3 d) (pat3 d2) (rep3 pkg.1 d2) = true := by
    intro d hd d2 hd2
    exact List.all_eq_true.mp
      (List.all_eq_true.mp (List.all_eq_true.mp c2ok_subsub pkg hmem) d hd) d2 hd2
  have hdec := fixLinks_decomp pkg.1 s
  -- absences of all four rule patterns in the fixed file
  have ha1 : ¬ pat1 <:+: fixLinks pkg.1 s := by
    rw [hdec]
    apply crossOk_no_occ hp1ne hp4ne hr4ne c2ok_r1r4
    apply subPass_pres_absence pkg.1 hp1ne (subdirsOf pkg.1) hE
    apply crossOk_no_occ hp1ne hp2ne hr2ne c2ok_r1r2
    exact selfOk_no_reocc hp1ne (rep1_ne pkg.1) hA s
  have ha3 : ∀ d ∈ subdirsOf pkg.1, ¬ pat3 d <:+: fixLinks pkg.1 s := by
    intro d hd
    rw [hdec]
    apply crossOk_no_occ (pat3_ne d) hp4ne hr4ne (hG d hd)
    exact subPass_self_absence pkg.1 (subdirsOf pkg.1) hF hH d hd _
  have ha4 : ¬ pat4 <:+: fixLinks pkg.1 s := by
    rw [hdec]
    exact selfOk_no_reocc hp4ne hr4ne c2ok_r4self _
  -- the second pass is therefore the identity
  show applyRules (rules pkg.1) (fixLinks pkg.1 s) = fixLinks pkg.1 s
  apply applyRules_id
  intro pr hpr
  unfold rules at hpr
  rcases List.mem_append.mp hpr with hpr | hpr
  · rcases List.mem_append.mp hpr with hpr | hpr
    · simp only [List.mem_cons, List.not_mem_nil, or_false] at hpr
      rcases hpr with rfl | rfl
      · exact ha1
      · exact h2occ
    · obtain ⟨d, hd, he⟩ := List.mem_map.mp hpr
      subst he
      exact ha3 d hd
  · simp only [List.mem_cons, List.not_mem_nil, or_false] at hpr
    subst hpr
    exact ha4

/-- Witness for the amended C2 at module `"ana"` and a pattern-free page. -/
theorem C2_fixer_idem_witness :
    fixLinks "ana" (fixLinks "ana" "hello".data) = fixLinks "ana" "hello".data :=
  C2_fixer_idem ("ana", "analytical solutions") (by decide) "hello".data (by decide)
